import Mathlib

/-!
Shallow embedding of the `reservoir-sampler` repository: the streaming
fixed-capacity sampler `Reservoir<T>` (`src/sampler/src/lib.rs`) and the
prize-tier allocation layer `Choosen` with its `ChoosenBuilder` and
`Position` (`src/choosen/src/lib.rs`, `builder.rs`, `pos.rs`).

Randomness: the source draws `rand::random::<usize>()` and reduces it by
`% k`.  Here every operation that draws takes the raw draw(s) as an
explicit argument (a `Nat`, or an oracle `Nat → Nat` indexed by the loop
counter for the finalisation loop), and the reduction `% k + 1` is kept in
the embedded code exactly as written in the source.  Machine `usize`
arithmetic never overflows in these functions (counters only grow by 1 per
call and indices stay below vector lengths), so `Nat` is a faithful model.
`Vec<Option<T>>` is a `List (Option T)`; `Vec::capacity` equals the length
for vectors built by `vec::from_elem` and never re-allocated, as here.
-/

universe u

/-- Model of `Reservoir<T>` from `src/sampler/src/lib.rs`: `total` counts the items
passed through so far, `pool` is the fixed vector of optional slots. -/
structure Reservoir (T : Type u) where
  total : Nat
  pool : List (Option T)
deriving DecidableEq

namespace Reservoir

variable {T : Type u}

/-- Source `Reservoir::with_capacity(n)`: `n` empty slots, zero items seen. -/
def with_capacity (T : Type u) (n : Nat) : Reservoir T :=
  { total := 0, pool := List.replicate n none }

/-- Source `Reservoir::sample` (lines 52-70 of `src/sampler/src/lib.rs`):
increment `total`, derive the rank `r = rnd % total + 1` from the raw
random draw `rnd`, and when `r <= pool_cap` take the old occupant of slot
`r-1` (`replaced`) and put the new item there.  During warm-up
(`total <= pool_cap && r < total`) the taken value is moved on into slot
`total-1` (`replaced.take()`), so the returned third component is `none`
in that case.  Returns `((r, total, replaced), updated reservoir)`. -/
def sample (res : Reservoir T) (rnd : Nat) (it : T) :
    (Nat × Nat × Option T) × Reservoir T :=
  let pool_cap := res.pool.length
  let total := res.total + 1
  let r := rnd % total + 1
  let replaced := if r ≤ pool_cap then res.pool.getD (r - 1) none else none
  let pool1 := if r ≤ pool_cap then res.pool.set (r - 1) (some it) else res.pool
  if total ≤ pool_cap ∧ r < total then
    ((r, total, none), { total := total, pool := pool1.set (total - 1) replaced })
  else
    ((r, total, replaced), { total := total, pool := pool1 })

/-- Source `Reservoir::samples`: read-only view of the pool. -/
def samples (res : Reservoir T) : List (Option T) :=
  res.pool

/-- Body of the `while i < capacity` loop of `Reservoir::lock` (lines 76-88
of `src/sampler/src/lib.rs`), with the remaining iteration count made
explicit as `fuel`.  Each iteration increments the counter to `j`, draws
`r = rng j % j + 1` and, when `r <= cap`, performs
`pool[j-1] = pool[r-1].take()`: slot `r-1` becomes empty and slot `j-1`
receives its old content. -/
def lockLoop (rng : Nat → Nat) (cap : Nat) (pool : List (Option T)) (i fuel : Nat) :
    List (Option T) :=
  match fuel with
  | 0 => pool
  | fuel' + 1 =>
    let j := i + 1
    let r := rng j % j + 1
    let pool' :=
      if r ≤ cap then (pool.set (r - 1) none).set (j - 1) (pool.getD (r - 1) none)
      else pool
    lockLoop rng cap pool' j fuel'

/-- Source `Reservoir::lock`: run the loop from `i = total` while `i < capacity`
(hence `capacity - total` iterations) and return the pool. -/
def lock (res : Reservoir T) (rng : Nat → Nat) : List (Option T) :=
  lockLoop rng res.pool.length res.pool res.total (res.pool.length - res.total)

/-- Feed a stream of (raw random draw, item) pairs one at a time. -/
def foldSample (res : Reservoir T) (ps : List (Nat × T)) : Reservoir T :=
  ps.foldl (fun acc p => (acc.sample p.1 p.2).2) res

/-- Multiset of items held in the occupied slots of a pool. -/
def msomes (pool : List (Option T)) : Multiset T :=
  (pool.filterMap id : List T)

/-- Number of occupied slots of a pool. -/
def countSome (pool : List (Option T)) : Nat :=
  pool.countP (fun o => o.isSome)

/-- Occupancy shape of every reachable reservoir state: slot `i` is
occupied exactly when `i < total`. -/
def Inv (res : Reservoir T) : Prop :=
  ∀ i, i < res.pool.length → ((res.pool.getD i none).isSome ↔ i < res.total)

end Reservoir

/-- Model of `PositionTypeError` from `src/choosen/src/pos.rs`. -/
inductive PositionTypeError where
  | EmptyName
  | ZeroCapacity
deriving DecidableEq

/-- Model of `Position` from `src/choosen/src/pos.rs`. -/
structure Position where
  name : String
  cap : Nat
deriving DecidableEq

namespace Position

/-- Source `impl Default for Position`. -/
def default : Position :=
  { name := "default_name", cap := 1 }

/-- Source `Position::set_name`: reject the empty name, otherwise store it.  On
error the receiver is unchanged in the source; the `ok` value carries the
updated position. -/
def set_name (p : Position) (name : String) : Except PositionTypeError Position :=
  if name.length = 0 then .error .EmptyName
  else .ok { p with name := name }

/-- Source `Position::set_cap`: reject capacity zero, otherwise store it. -/
def set_cap (p : Position) (new_cap : Nat) : Except PositionTypeError Position :=
  if new_cap = 0 then .error .ZeroCapacity
  else .ok { p with cap := new_cap }

end Position

/-- Model of `BuildChoosenError` from `src/choosen/src/builder.rs`. -/
inductive BuildChoosenError where
  | EmptyBuilder
  | WrongPositionType (e : PositionTypeError)
  | PositionOutBound (idx : Nat)
deriving DecidableEq

/-- Model of `ChoosenBuilder` from `src/choosen/src/builder.rs`: the staged
position list. -/
structure ChoosenBuilder where
  positions : List Position
deriving DecidableEq

/-- Model of `Choosen<P>` from `src/choosen/src/lib.rs`: the frozen positions and
the shared reservoir `lucky`. -/
structure Choosen (P : Type u) where
  positions : List Position
  lucky : Reservoir P
deriving DecidableEq

namespace ChoosenBuilder

/-- Source `ChoosenBuilder::new`. -/
def new : ChoosenBuilder :=
  { positions := [] }

/-- Source `ChoosenBuilder::add_position` (lines 32-40 of
`src/choosen/src/builder.rs`): validate name then capacity on a default
position and push it.  The source takes `&mut self` and returns early on
error, leaving the staged list untouched; the model returns the builder
after the call together with the error, if any. -/
def add_position (b : ChoosenBuilder) (name : String) (cap : Nat) :
    ChoosenBuilder × Option BuildChoosenError :=
  match Position.default.set_name name with
  | .error e => (b, some (.WrongPositionType e))
  | .ok pos =>
    match pos.set_cap cap with
    | .error e => (b, some (.WrongPositionType e))
    | .ok pos2 => ({ positions := b.positions ++ [pos2] }, none)

/-- Source `ChoosenBuilder::build` (lines 84-95 of `src/choosen/src/builder.rs`):
fail on an empty staged list, otherwise clone the positions and pair them
with a fresh reservoir whose capacity is the sum of the position
capacities. -/
def build (b : ChoosenBuilder) (P : Type u) : Except BuildChoosenError (Choosen P) :=
  if b.positions.isEmpty then .error .EmptyBuilder
  else .ok { positions := b.positions,
             lucky := Reservoir.with_capacity P ((b.positions.map Position.cap).sum) }

end ChoosenBuilder

namespace Choosen

variable {P : Type u}

/-- Source `Choosen::poll_one`: delegate to `Reservoir::sample`. -/
def poll_one (c : Choosen P) (rnd : Nat) (it : P) :
    (Nat × Nat × Option P) × Choosen P :=
  let out := c.lucky.sample rnd it
  (out.1, { c with lucky := out.2 })

/-- Feed a stream of (raw random draw, item) pairs one at a time. -/
def foldPoll (c : Choosen P) (ps : List (Nat × P)) : Choosen P :=
  ps.foldl (fun acc p => (acc.poll_one p.1 p.2).2) c

/-- The position-walking loop of `Choosen::release` (lines 31-44 of
`src/choosen/src/lib.rs`).  For each position, read slots
`counted, ..., counted + cap - 1` in order and keep the occupied ones;
`none` models the index-out-of-bounds panic of `final_lucky[counted + i]`.
The guard `counted + cap ≤ length` is exactly "every index this position
reads is in range" (for `cap = 0` both the source loop and the guard are
vacuous on every call reachable from `release`, where `counted ≤ length`
whenever the previous guard passed).  The source `take()`s each slot it
reads, but no index is ever read twice (`counted` advances by `cap` each
position), so plain reads are equivalent. -/
def releaseLoop (final_lucky : List (Option P)) (positions : List Position)
    (counted : Nat) : Option (List (String × List P)) :=
  match positions with
  | [] => some []
  | p :: rest =>
    if counted + p.cap ≤ final_lucky.length then
      let luck := (List.range p.cap).filterMap (fun i => final_lucky.getD (counted + i) none)
      match releaseLoop final_lucky rest (counted + p.cap) with
      | some result => some ((p.name, luck) :: result)
      | none => none
    else none

/-- Source `Choosen::release` (lines 24-47 of `src/choosen/src/lib.rs`): lock the
reservoir; if no slot is occupied return `Err("No one is choosen!")`,
otherwise walk the positions collecting each one's winners.  The outer
`Option` models the possibility of an index panic in the walk (`none`);
the inner `Except` is the source's `Result`. -/
def release (c : Choosen P) (rng : Nat → Nat) :
    Option (Except String (List (String × List P))) :=
  let final_lucky := c.lucky.lock rng
  if final_lucky.any (fun it => it.isSome) = false then
    some (.error "No one is choosen!")
  else
    (releaseLoop final_lucky c.positions 0).map Except.ok

end Choosen

/-! Section: List helper lemmas -/

theorem list_getD_set_self {α : Type u} (l : List α) {j : Nat} (h : j < l.length)
    (a d : α) : (l.set j a).getD j d = a := by
  rw [List.getD_eq_getElem?_getD, List.getElem?_set_self h]
  rfl

theorem list_getD_set_ne {α : Type u} (l : List α) {i j : Nat} (hne : j ≠ i)
    (a d : α) : (l.set j a).getD i d = l.getD i d := by
  rw [List.getD_eq_getElem?_getD, List.getElem?_set_ne hne, ← List.getD_eq_getElem?_getD]

theorem list_getD_eq_getElem {α : Type u} (l : List α) {i : Nat} (h : i < l.length)
    (d : α) : l.getD i d = l[i] := by
  rw [List.getD_eq_getElem?_getD, List.getElem?_eq_getElem h]
  rfl

/-! Section: Multiset-of-occupied-slots lemmas -/

theorem msomes_append {T : Type u} (x y : List (Option T)) :
    Reservoir.msomes (x ++ y) = Reservoir.msomes x + Reservoir.msomes y := by
  simp [Reservoir.msomes, List.filterMap_append]

theorem msomes_cons {T : Type u} (o : Option T) (l : List (Option T)) :
    Reservoir.msomes (o :: l) = (o.toList : Multiset T) + Reservoir.msomes l := by
  cases o <;> simp [Reservoir.msomes, List.filterMap_cons, Option.toList]

theorem msomes_set {T : Type u} (l : List (Option T)) {j : Nat} (h : j < l.length)
    (a : Option T) :
    Reservoir.msomes (l.set j a) + ((l.getD j none).toList : Multiset T) =
      Reservoir.msomes l + (a.toList : Multiset T) := by
  have hsplit : l = l.take j ++ l.getD j none :: l.drop (j + 1) := by
    rw [list_getD_eq_getElem l h]
    conv_lhs => rw [← List.take_append_drop j l]
    rw [List.drop_eq_getElem_cons h]
  have h1 : Reservoir.msomes (l.set j a) =
      Reservoir.msomes (l.take j) + ((a.toList : Multiset T) +
        Reservoir.msomes (l.drop (j + 1))) := by
    rw [List.set_eq_take_cons_drop a h, msomes_append, msomes_cons]
  have h2 : Reservoir.msomes l =
      Reservoir.msomes (l.take j) + (((l.getD j none).toList : Multiset T) +
        Reservoir.msomes (l.drop (j + 1))) := by
    conv_lhs => rw [hsplit]
    rw [msomes_append, msomes_cons]
  rw [h1, h2]
  abel

theorem card_msomes {T : Type u} (l : List (Option T)) :
    Multiset.card (Reservoir.msomes l) = Reservoir.countSome l := by
  induction l with
  | nil => rfl
  | cons o l ih =>
    cases o <;>
      simp [Reservoir.msomes, Reservoir.countSome, List.countP_cons, List.filterMap_cons] <;>
      simp [Reservoir.msomes, Reservoir.countSome] at ih <;> omega

/-! Section: Shape lemmas for `Reservoir.sample` -/

namespace Reservoir

variable {T : Type u}

theorem sample_snd_total (res : Reservoir T) (rnd : Nat) (it : T) :
    (res.sample rnd it).2.total = res.total + 1 := by
  simp only [sample]
  split <;> rfl

theorem sample_snd_pool_length (res : Reservoir T) (rnd : Nat) (it : T) :
    (res.sample rnd it).2.pool.length = res.pool.length := by
  simp only [sample]
  split <;> (try split) <;> simp

theorem sample_fst (res : Reservoir T) (rnd : Nat) (it : T) :
    (res.sample rnd it).1.1 = rnd % (res.total + 1) + 1 ∧
    (res.sample rnd it).1.2.1 = res.total + 1 := by
  simp only [sample]
  split <;> exact ⟨rfl, rfl⟩

theorem sample_pool_getD_frame (res : Reservoir T) (rnd : Nat) (it : T) (i : Nat)
    (h1 : i ≠ rnd % (res.total + 1)) (h2 : i ≠ res.total) :
    (res.sample rnd it).2.pool.getD i none = res.pool.getD i none := by
  simp only [sample]
  split
  · dsimp only
    simp only [Nat.add_sub_cancel]
    rw [list_getD_set_ne _ (Ne.symm h2)]
    split
    · rw [list_getD_set_ne _ (Ne.symm h1)]
    · rfl
  · dsimp only
    split
    · simp only [Nat.add_sub_cancel]
      rw [list_getD_set_ne _ (Ne.symm h1)]
    · rfl

theorem sample_inv (res : Reservoir T) (rnd : Nat) (it : T) (h : res.Inv) :
    (res.sample rnd it).2.Inv := by
  have hm : rnd % (res.total + 1) < res.total + 1 := Nat.mod_lt _ (Nat.succ_pos _)
  intro i hi
  rw [sample_snd_pool_length] at hi
  rw [sample_snd_total]
  simp only [sample]
  split
  · rename_i hcase
    dsimp only
    simp only [Nat.add_sub_cancel]
    have hrn : rnd % (res.total + 1) + 1 ≤ res.pool.length := by omega
    simp only [if_pos hrn]
    by_cases hit : i = res.total
    · subst hit
      rw [list_getD_set_self _ (by simp; omega)]
      have hprev := h (rnd % (res.total + 1)) (by omega)
      rw [hprev]
      omega
    · rw [list_getD_set_ne _ (Ne.symm hit)]
      by_cases hir : i = rnd % (res.total + 1)
      · subst hir
        rw [list_getD_set_self _ (by omega)]
        simp only [Option.isSome_some, true_iff]
        omega
      · rw [list_getD_set_ne _ (Ne.symm hir)]
        rw [h i hi]
        omega
  · rename_i hcase
    dsimp only
    simp only [Nat.add_sub_cancel]
    split
    · rename_i hrn
      have hdisj : rnd % (res.total + 1) + 1 = res.total + 1 ∨
          res.pool.length ≤ res.total := by
        rcases Nat.lt_or_ge res.pool.length (res.total + 1) with h2 | h2
        · exact Or.inr (by omega)
        · have hB : ¬(rnd % (res.total + 1) + 1 < res.total + 1) :=
            fun hb => hcase ⟨h2, hb⟩
          omega
      by_cases hir : i = rnd % (res.total + 1)
      · subst hir
        rw [list_getD_set_self _ (by omega)]
        simp only [Option.isSome_some, true_iff]
        omega
      · rw [list_getD_set_ne _ (Ne.symm hir)]
        rw [h i hi]
        omega
    · rename_i hrn
      rw [h i hi]
      omega


end Reservoir

/-! Section: Invariant and counting lemmas -/

namespace Reservoir

variable {T : Type u}

theorem with_capacity_inv (n : Nat) : (with_capacity T n).Inv := by
  intro i hi
  simp only [with_capacity] at hi ⊢
  rw [List.getD_eq_getElem?_getD, List.getElem?_replicate]
  split <;> simp

theorem inv_getD_none (res : Reservoir T) (h : res.Inv) {k : Nat}
    (h1 : res.total ≤ k) (h2 : k < res.pool.length) :
    res.pool.getD k none = none := by
  have hk := h k h2
  cases ho : res.pool.getD k none with
  | none => rfl
  | some v =>
    rw [ho] at hk
    simp at hk
    omega

theorem countSome_eq_min {T : Type u} :
    ∀ (l : List (Option T)) (t : Nat),
      (∀ i, i < l.length → ((l.getD i none).isSome ↔ i < t)) →
      countSome l = min t l.length := by
  intro l
  induction l with
  | nil => intro t _; simp [countSome]
  | cons o l ih =>
    intro t hyp
    have h0 : o.isSome ↔ 0 < t := hyp 0 (by simp)
    have htail : ∀ i, i < l.length → ((l.getD i none).isSome ↔ i < t - 1) := by
      intro i hi
      have := hyp (i + 1) (by simp; omega)
      rw [show ((o :: l).getD (i + 1) none) = l.getD i none from rfl] at this
      rw [this]
      omega
    have hl := ih (t - 1) htail
    have hcons : countSome (o :: l) = countSome l + if o.isSome then 1 else 0 := by
      simp [countSome, List.countP_cons]
    rcases Nat.eq_zero_or_pos t with ht | ht
    · subst ht
      cases o with
      | none =>
        rw [hcons, hl]
        simp
      | some v => exfalso; simp at h0
    · cases o with
      | none => exfalso; simp at h0; omega
      | some v =>
        rw [hcons, hl]
        simp
        omega

theorem lockLoop_length (rng : Nat → Nat) (cap : Nat) :
    ∀ (fuel : Nat) (pool : List (Option T)) (i : Nat),
      (lockLoop rng cap pool i fuel).length = pool.length := by
  intro fuel
  induction fuel with
  | zero => intro pool i; rfl
  | succ f ih =>
    intro pool i
    simp only [lockLoop]
    rw [ih]
    split <;> simp

theorem lockLoop_msomes (rng : Nat → Nat) (cap : Nat) :
    ∀ (fuel : Nat) (pool : List (Option T)) (i : Nat),
      cap = pool.length → i + fuel ≤ cap →
      (∀ k, i ≤ k → k < cap → pool.getD k none = none) →
      msomes (lockLoop rng cap pool i fuel) = msomes pool := by
  intro fuel
  induction fuel with
  | zero => intro pool i _ _ _; rfl
  | succ f ih =>
    intro pool i hcap hif hemp
    have hm : rng (i + 1) % (i + 1) < i + 1 := Nat.mod_lt _ (Nat.succ_pos _)
    have hr : rng (i + 1) % (i + 1) + 1 ≤ cap := by omega
    simp only [lockLoop, Nat.add_sub_cancel, if_pos hr]
    have hmlen : rng (i + 1) % (i + 1) < pool.length := by omega
    have hilen : i < pool.length := by omega
    have hset : ((pool.set (rng (i + 1) % (i + 1)) none).set i
        (pool.getD (rng (i + 1) % (i + 1)) none)).length = pool.length := by simp
    rw [ih _ (i + 1) (by simp [hcap]) (by omega) ?_]
    · have e1 := msomes_set (pool.set (rng (i + 1) % (i + 1)) none)
        (j := i) (by simp [hilen]) (pool.getD (rng (i + 1) % (i + 1)) none)
      have e2 := msomes_set pool (j := rng (i + 1) % (i + 1)) hmlen none
      have hmid : ((pool.set (rng (i + 1) % (i + 1)) none).getD i none) = none := by
        by_cases hmi : rng (i + 1) % (i + 1) = i
        · rw [hmi, list_getD_set_self _ hilen]
        · rw [list_getD_set_ne _ hmi, hemp i (le_refl i) (by omega)]
      rw [hmid] at e1
      simp only [Option.toList_none] at e1 e2
      simp only [Multiset.coe_nil, add_zero] at e1 e2
      rw [e1, e2]
    · intro k hk1 hk2
      have hknei : i ≠ k := by omega
      have hknem : rng (i + 1) % (i + 1) ≠ k := by omega
      rw [list_getD_set_ne _ hknei, list_getD_set_ne _ hknem]
      exact hemp k (by omega) hk2

end Reservoir

/-! Section: Lock preserves the held items; warm-up sampling adds each item -/

namespace Reservoir

variable {T : Type u}

theorem lock_length (res : Reservoir T) (rng : Nat → Nat) :
    (res.lock rng).length = res.pool.length := by
  unfold lock
  exact lockLoop_length rng res.pool.length _ res.pool res.total

theorem lock_msomes (res : Reservoir T) (rng : Nat → Nat) (h : res.Inv) :
    msomes (res.lock rng) = msomes res.pool := by
  unfold lock
  rcases le_or_lt res.pool.length res.total with hle | hlt
  · rw [Nat.sub_eq_zero_of_le hle]
    rfl
  · exact lockLoop_msomes rng res.pool.length _ res.pool res.total rfl
      (by omega) (fun k hk1 hk2 => inv_getD_none res h hk1 hk2)

theorem lock_countSome (res : Reservoir T) (rng : Nat → Nat) (h : res.Inv) :
    countSome (res.lock rng) = countSome res.pool := by
  rw [← card_msomes, ← card_msomes, lock_msomes res rng h]

theorem sample_msomes_warmup (res : Reservoir T) (rnd : Nat) (it : T)
    (h : res.Inv) (hlt : res.total < res.pool.length) :
    msomes (res.sample rnd it).2.pool = it ::ₘ msomes res.pool := by
  have hm : rnd % (res.total + 1) < res.total + 1 := Nat.mod_lt _ (Nat.succ_pos _)
  have hmn : rnd % (res.total + 1) + 1 ≤ res.pool.length := by omega
  have hsing : msomes res.pool + ({it} : Multiset T) = it ::ₘ msomes res.pool := by
    rw [add_comm, Multiset.singleton_add]
  have e2 := msomes_set res.pool (j := rnd % (res.total + 1)) (by omega) (some it)
  simp only [Option.toList_some, Multiset.coe_singleton] at e2
  simp only [sample]
  split
  · rename_i hcase
    dsimp only
    simp only [Nat.add_sub_cancel, if_pos hmn]
    have hmt : rnd % (res.total + 1) < res.total := by omega
    have e1 := msomes_set (res.pool.set (rnd % (res.total + 1)) (some it))
      (j := res.total) (by simp; exact hlt) (res.pool.getD (rnd % (res.total + 1)) none)
    have hmid : ((res.pool.set (rnd % (res.total + 1)) (some it)).getD res.total none)
        = none := by
      rw [list_getD_set_ne _ (by omega), inv_getD_none res h (le_refl _) hlt]
    rw [hmid] at e1
    simp only [Option.toList_none, Multiset.coe_nil, add_zero] at e1
    rw [e1, e2, hsing]
  · rename_i hcase
    dsimp only
    simp only [Nat.add_sub_cancel, if_pos hmn]
    have hmt : rnd % (res.total + 1) = res.total := by
      have hB : ¬(rnd % (res.total + 1) + 1 < res.total + 1) :=
        fun hb => hcase ⟨by omega, hb⟩
      omega
    rw [hmt] at e2 ⊢
    rw [inv_getD_none res h (le_refl _) hlt] at e2
    simp only [Option.toList_none, Multiset.coe_nil, add_zero] at e2
    rw [e2, hsing]

end Reservoir

/-! Section: Folding a stream of samples -/

namespace Reservoir

variable {T : Type u}

theorem foldSample_cons (res : Reservoir T) (p : Nat × T) (ps : List (Nat × T)) :
    foldSample res (p :: ps) = foldSample (res.sample p.1 p.2).2 ps :=
  rfl

theorem foldSample_props :
    ∀ (ps : List (Nat × T)) (res : Reservoir T), res.Inv →
      (foldSample res ps).Inv ∧ (foldSample res ps).total = res.total + ps.length ∧
      (foldSample res ps).pool.length = res.pool.length := by
  intro ps
  induction ps with
  | nil => intro res h; exact ⟨h, by simp [foldSample], rfl⟩
  | cons p ps ih =>
    intro res h
    rw [foldSample_cons]
    obtain ⟨h1, h2, h3⟩ := ih _ (sample_inv res p.1 p.2 h)
    refine ⟨h1, ?_, ?_⟩
    · rw [h2, sample_snd_total]
      simp
      omega
    · rw [h3, sample_snd_pool_length]

theorem msomes_replicate_none (n : Nat) :
    msomes (List.replicate n (none : Option T)) = 0 := by
  induction n with
  | zero => rfl
  | succ k ih =>
    simp only [List.replicate_succ, msomes, List.filterMap_cons] at ih ⊢
    exact ih

theorem foldSample_msomes_warmup :
    ∀ (ps : List (Nat × T)) (res : Reservoir T), res.Inv →
      res.total + ps.length ≤ res.pool.length →
      msomes (foldSample res ps).pool
        = msomes res.pool + (ps.map Prod.snd : Multiset T) := by
  intro ps
  induction ps with
  | nil => intro res _ _; simp [foldSample]
  | cons p ps ih =>
    intro res h hb
    rw [foldSample_cons]
    have hlt : res.total < res.pool.length := by simp at hb; omega
    have hstep := sample_msomes_warmup res p.1 p.2 h hlt
    have hrec := ih _ (sample_inv res p.1 p.2 h)
      (by rw [sample_snd_total, sample_snd_pool_length]; simp at hb ⊢; omega)
    rw [hrec, hstep]
    simp only [List.map_cons, ← Multiset.cons_coe, ← Multiset.singleton_add]
    abel

end Reservoir

/-! Section: Claims C1, C2, C3, C6 -/

/-- C1: starting from a fresh `Reservoir` of any capacity `c`, after any
sequence of `sample` calls (any stream `ps` of raw draws and items) exactly
`min(seen, capacity)` slots are occupied; while `seen <= capacity` the
occupied slots are exactly slots `0..seen` (the iff below states the shape
for every reachable state, warm-up and steady alike), and the occupancy
count is preserved by `lock`. -/
theorem reservoir_occupancy_invariant {T : Type u} (c : Nat) (ps : List (Nat × T))
    (rng : Nat → Nat) :
    (Reservoir.foldSample (Reservoir.with_capacity T c) ps).pool.length = c ∧
    (Reservoir.foldSample (Reservoir.with_capacity T c) ps).total = ps.length ∧
    (∀ i, i < c →
      (((Reservoir.foldSample (Reservoir.with_capacity T c) ps).pool.getD i none).isSome ↔
        i < ps.length)) ∧
    Reservoir.countSome (Reservoir.foldSample (Reservoir.with_capacity T c) ps).pool
      = min ps.length c ∧
    Reservoir.countSome ((Reservoir.foldSample (Reservoir.with_capacity T c) ps).lock rng)
      = min ps.length c := by
  obtain ⟨hInv, hTot, hLen⟩ :=
    Reservoir.foldSample_props ps (Reservoir.with_capacity T c)
      (Reservoir.with_capacity_inv c)
  have hLen' : (Reservoir.foldSample (Reservoir.with_capacity T c) ps).pool.length = c := by
    rw [hLen]; simp [Reservoir.with_capacity]
  have hTot' : (Reservoir.foldSample (Reservoir.with_capacity T c) ps).total = ps.length := by
    rw [hTot]; simp [Reservoir.with_capacity]
  have hCount : Reservoir.countSome
      (Reservoir.foldSample (Reservoir.with_capacity T c) ps).pool = min ps.length c := by
    have := Reservoir.countSome_eq_min
      (Reservoir.foldSample (Reservoir.with_capacity T c) ps).pool
      (Reservoir.foldSample (Reservoir.with_capacity T c) ps).total
      (fun i hi => hInv i hi)
    rw [hTot', hLen'] at this
    exact this
  refine ⟨hLen', hTot', ?_, hCount, ?_⟩
  · intro i hi
    have := hInv i (by rw [hLen']; exact hi)
    rw [hTot'] at this
    exact this
  · rw [Reservoir.lock_countSome _ rng hInv, hCount]

/-- C1 witness: concrete instance of the slot-shape conjunct. -/
theorem reservoir_occupancy_invariant_witness :
    ((Reservoir.foldSample (Reservoir.with_capacity Nat 2) [(0, 7)]).pool.getD 0 none).isSome
      ↔ 0 < [(0, (7:Nat))].length :=
  (reservoir_occupancy_invariant 2 [(0, 7)] (fun _ => 0)).2.2.1 0 (by decide)

/-- C2: every `sample` call returns a rank in `[1, seen]` where `seen` is
the count after the call, the returned `seen` is the old count plus one,
and the stored count also increases by exactly one. -/
theorem sample_rank_validity {T : Type u} (res : Reservoir T) (rnd : Nat) (it : T) :
    1 ≤ (res.sample rnd it).1.1 ∧
    (res.sample rnd it).1.1 ≤ (res.sample rnd it).1.2.1 ∧
    (res.sample rnd it).1.2.1 = res.total + 1 ∧
    (res.sample rnd it).2.total = res.total + 1 := by
  obtain ⟨h1, h2⟩ := Reservoir.sample_fst res rnd it
  have hm : rnd % (res.total + 1) < res.total + 1 := Nat.mod_lt _ (Nat.succ_pos _)
  refine ⟨by rw [h1]; omega, by rw [h1, h2]; omega, h2,
    Reservoir.sample_snd_total res rnd it⟩

/-- C3: for every capacity `c` and stream of `n <= c` items fed into a
fresh reservoir, the multiset of items held by the `lock` result is
exactly the multiset of stream items — each item appears exactly once,
whatever the random draws were. -/
theorem warmup_completeness {T : Type u} (c : Nat) (ps : List (Nat × T))
    (rng : Nat → Nat) (h : ps.length ≤ c) :
    Reservoir.msomes ((Reservoir.foldSample (Reservoir.with_capacity T c) ps).lock rng)
      = (ps.map Prod.snd : Multiset T) := by
  have hInv := (Reservoir.foldSample_props ps (Reservoir.with_capacity T c)
    (Reservoir.with_capacity_inv c)).1
  rw [Reservoir.lock_msomes _ rng hInv]
  rw [Reservoir.foldSample_msomes_warmup ps _ (Reservoir.with_capacity_inv c)
    (by simp [Reservoir.with_capacity]; omega)]
  rw [show (Reservoir.with_capacity T c).pool = List.replicate c none from rfl]
  rw [Reservoir.msomes_replicate_none, zero_add]

/-- C3 witness: a two-item stream into capacity 3 survives `lock` intact. -/
theorem warmup_completeness_witness :
    ([(5, 8), (1, 9)].length ≤ 3) ∧
    Reservoir.msomes ((Reservoir.foldSample (Reservoir.with_capacity Nat 3)
        [(5, 8), (1, 9)]).lock (fun k => k + 2))
      = (([(5, 8), (1, 9)].map Prod.snd : List Nat) : Multiset Nat) :=
  ⟨by decide, warmup_completeness 3 [(5, 8), (1, 9)] (fun k => k + 2) (by decide)⟩

/-- C6: when `seen >= capacity` the `lock` loop body never runs, so the
slot sequence is returned exactly as it was. -/
theorem lock_full_noop {T : Type u} (res : Reservoir T) (rng : Nat → Nat)
    (h : res.pool.length ≤ res.total) :
    res.lock rng = res.pool := by
  unfold Reservoir.lock
  rw [Nat.sub_eq_zero_of_le h]
  rfl

/-- C6 witness: a reservoir that has seen as many items as its capacity. -/
theorem lock_full_noop_witness :
    (Reservoir.mk 2 [some (1:Nat), none]).pool.length
        ≤ (Reservoir.mk 2 [some (1:Nat), none]).total ∧
    Reservoir.lock (Reservoir.mk 2 [some (1:Nat), none]) (fun _ => 0) = [some 1, none] :=
  ⟨by decide, lock_full_noop _ _ (by decide)⟩

/-! Section: Claims C7 and C8 -/

/-- C7 counterexample: after sampling one item into a fresh capacity-2
reservoir, a second call drawing rank 1 targets the occupied slot 0
(rank 1 does not exceed the capacity 2), yet the returned evicted value is
`none`, because the warm-up backfill `replaced.take()`s it into slot
`seen-1` instead of returning it. -/
theorem evicted_backfill_cex :
    ((Reservoir.foldSample (Reservoir.with_capacity Nat 2) [(0, 10)]).sample 0 20).1.1 = 1 ∧
    (Reservoir.foldSample (Reservoir.with_capacity Nat 2) [(0, 10)]).pool.length = 2 ∧
    ((Reservoir.foldSample (Reservoir.with_capacity Nat 2) [(0, 10)]).pool.getD 0 none)
      = some 10 ∧
    ((Reservoir.foldSample (Reservoir.with_capacity Nat 2) [(0, 10)]).sample 0 20).1.2.2
      = none := by
  decide

/-- C7 amended: the returned evicted value is the old content of slot
`rank-1` exactly when the rank is within capacity and the warm-up backfill
does not fire; it is `none` when the rank exceeds the capacity, when the
targeted slot was empty, or when the backfill relocated the taken value
into slot `seen-1`. -/
theorem evicted_characterization {T : Type u} (res : Reservoir T) (rnd : Nat) (it : T) :
    (res.sample rnd it).1.2.2 =
      if rnd % (res.total + 1) + 1 ≤ res.pool.length ∧
          ¬(res.total + 1 ≤ res.pool.length ∧ rnd % (res.total + 1) + 1 < res.total + 1) then
        res.pool.getD (rnd % (res.total + 1)) none
      else none := by
  simp only [Reservoir.sample]
  split
  · rename_i hcase
    dsimp only
    rw [if_neg]
    intro hc
    exact hc.2 hcase
  · rename_i hcase
    dsimp only
    split
    · rename_i hr
      simp only [Nat.add_sub_cancel]
      rw [if_pos ⟨hr, hcase⟩]
    · rename_i hr
      rw [if_neg]
      intro hc
      exact hr hc.1

/-- C8 counterexample: the first sample into a fresh capacity-1 reservoir
mutates exactly one slot (slot 0 goes from empty to occupied), not zero
and not two. -/
theorem sample_one_slot_cex :
    ((Finset.range (Reservoir.with_capacity Nat 1).pool.length).filter
      (fun i => ((Reservoir.with_capacity Nat 1).sample 0 5).2.pool.getD i none
        ≠ (Reservoir.with_capacity Nat 1).pool.getD i none)).card = 1 := by
  decide

/-- C8 amended: every `sample` call increments `seen` by one, keeps the
pool length, and mutates at most two slots — only slot `rank-1` and (in
the warm-up backfill case) slot `seen-1` can change; all other slots are
unchanged. -/
theorem sample_frame {T : Type u} [DecidableEq T] (res : Reservoir T) (rnd : Nat) (it : T) :
    (res.sample rnd it).2.total = res.total + 1 ∧
    (res.sample rnd it).2.pool.length = res.pool.length ∧
    ((Finset.range res.pool.length).filter
        (fun i => (res.sample rnd it).2.pool.getD i none ≠ res.pool.getD i none))
      ⊆ {rnd % (res.total + 1), res.total} ∧
    ((Finset.range res.pool.length).filter
        (fun i => (res.sample rnd it).2.pool.getD i none ≠ res.pool.getD i none)).card
      ≤ 2 := by
  have hsub : ((Finset.range res.pool.length).filter
      (fun i => (res.sample rnd it).2.pool.getD i none ≠ res.pool.getD i none))
      ⊆ {rnd % (res.total + 1), res.total} := by
    intro i hi
    simp only [Finset.mem_filter, Finset.mem_range] at hi
    obtain ⟨_, hchanged⟩ := hi
    by_contra hmem
    simp only [Finset.mem_insert, Finset.mem_singleton, not_or] at hmem
    obtain ⟨h1, h2⟩ := hmem
    exact hchanged (Reservoir.sample_pool_getD_frame res rnd it i h1 h2)
  refine ⟨Reservoir.sample_snd_total res rnd it,
    Reservoir.sample_snd_pool_length res rnd it, hsub, ?_⟩
  have hle := Finset.card_le_card hsub
  have hins := Finset.card_insert_le (rnd % (res.total + 1)) ({res.total} : Finset Nat)
  simp only [Finset.card_singleton] at hins
  omega

/-! Section: Choosen-level helper lemmas -/

namespace Choosen

variable {P : Type u}

theorem foldPoll_cons (c : Choosen P) (p : Nat × P) (ps : List (Nat × P)) :
    foldPoll c (p :: ps) = foldPoll (c.poll_one p.1 p.2).2 ps :=
  rfl

theorem foldPoll_parts :
    ∀ (ps : List (Nat × P)) (c : Choosen P),
      (foldPoll c ps).lucky = Reservoir.foldSample c.lucky ps ∧
      (foldPoll c ps).positions = c.positions := by
  intro ps
  induction ps with
  | nil => intro c; exact ⟨rfl, rfl⟩
  | cons p ps ih =>
    intro c
    rw [foldPoll_cons, Reservoir.foldSample_cons]
    exact ih (c.poll_one p.1 p.2).2

theorem releaseLoop_isSome (final : List (Option P)) :
    ∀ (positions : List Position) (counted : Nat),
      counted + (positions.map Position.cap).sum ≤ final.length →
      (releaseLoop final positions counted).isSome := by
  intro positions
  induction positions with
  | nil => intro counted _; rfl
  | cons p rest ih =>
    intro counted hb
    simp only [List.map_cons, List.sum_cons] at hb
    have hguard : counted + p.cap ≤ final.length := by omega
    rw [releaseLoop, if_pos hguard]
    have := ih (counted + p.cap) (by omega)
    cases hrec : releaseLoop final rest (counted + p.cap) with
    | none => rw [hrec] at this; exact absurd this (by simp)
    | some out => simp

theorem releaseLoop_sound (final : List (Option P)) :
    ∀ (positions : List Position) (counted : Nat) (out : List (String × List P)),
      releaseLoop final positions counted = some out →
      out.length = positions.length ∧
      ∀ j, j < positions.length →
        out.getD j ("", []) =
          ((positions.getD j Position.default).name,
           (List.range (positions.getD j Position.default).cap).filterMap
             (fun i => final.getD
               (counted + ((positions.take j).map Position.cap).sum + i) none)) := by
  intro positions
  induction positions with
  | nil =>
    intro counted out hout
    simp only [releaseLoop] at hout
    cases hout
    exact ⟨rfl, fun j hj => absurd hj (by simp)⟩
  | cons p rest ih =>
    intro counted out hout
    rw [releaseLoop] at hout
    by_cases hguard : counted + p.cap ≤ final.length
    · rw [if_pos hguard] at hout
      cases hrec : releaseLoop final rest (counted + p.cap) with
      | none => rw [hrec] at hout; exact absurd hout (by simp)
      | some out' =>
        rw [hrec] at hout
        simp only [Option.some.injEq] at hout
        obtain ⟨hlen, hspec⟩ := ih (counted + p.cap) out' hrec
        subst hout
        constructor
        · simp [hlen]
        · intro j hj
          cases j with
          | zero =>
            simp only [List.getD_cons_zero, List.take_zero, List.map_nil,
              List.sum_nil, Nat.add_zero]
          | succ j' =>
            have hj' : j' < rest.length := by simp at hj; omega
            have := hspec j' hj'
            simp only [List.getD_cons_succ, List.take_succ_cons, List.map_cons,
              List.sum_cons]
            rw [this]
            simp only [← Nat.add_assoc]
    · rw [if_neg hguard] at hout
      exact absurd hout (by simp)

end Choosen

/-! Section: Claim C9 -/

/-- C9: adding a position with an empty name fails with `EmptyName`,
adding a position with a (nonempty) name and capacity 0 fails with
`ZeroCapacity` — in either case the staged list is unchanged — and
building from zero staged positions fails with `EmptyBuilder`. -/
theorem builder_validation (b : ChoosenBuilder) (P : Type u) :
    (∀ cap, b.add_position "" cap
      = (b, some (.WrongPositionType .EmptyName))) ∧
    (∀ name, name ≠ "" →
      b.add_position name 0 = (b, some (.WrongPositionType .ZeroCapacity))) ∧
    (∀ b2 : ChoosenBuilder, b2.positions = [] → b2.build P = .error .EmptyBuilder) := by
  refine ⟨?_, ?_, ?_⟩
  · intro cap
    rfl
  · intro name hname
    have hlen : ¬(name.length = 0) := by
      intro h0
      apply hname
      cases name with
      | mk data =>
        simp [String.length] at h0
        simp [h0]
    simp [ChoosenBuilder.add_position, Position.set_name, Position.set_cap, hlen]
  · intro b2 h
    simp [ChoosenBuilder.build, h]

/-- C9 witness: the spec's own examples on a fresh builder. -/
theorem builder_validation_witness :
    (ChoosenBuilder.new.add_position "" 1
      = (ChoosenBuilder.new, some (.WrongPositionType .EmptyName))) ∧
    (ChoosenBuilder.new.add_position "x" 0
      = (ChoosenBuilder.new, some (.WrongPositionType .ZeroCapacity))) ∧
    (ChoosenBuilder.new.build Nat = .error .EmptyBuilder) :=
  ⟨(builder_validation ChoosenBuilder.new Nat).1 1,
   (builder_validation ChoosenBuilder.new Nat).2.1 "x" (by decide),
   (builder_validation ChoosenBuilder.new Nat).2.2 ChoosenBuilder.new rfl⟩

/-! Section: Release-level lemmas -/

namespace Choosen

variable {P : Type u}

theorem release_eq (c : Choosen P) (rng : Nat → Nat) :
    c.release rng =
      if (c.lucky.lock rng).any (fun o => o.isSome) = false then
        some (.error "No one is choosen!")
      else (releaseLoop (c.lucky.lock rng) c.positions 0).map Except.ok :=
  rfl

theorem release_ok_elim (c : Choosen P) (rng : Nat → Nat)
    (out : List (String × List P)) (h : c.release rng = some (.ok out)) :
    releaseLoop (c.lucky.lock rng) c.positions 0 = some out := by
  rw [release_eq] at h
  by_cases hany : (c.lucky.lock rng).any (fun o => o.isSome) = false
  · rw [if_pos hany] at h
    exact absurd h (by simp)
  · rw [if_neg hany] at h
    cases hrel : releaseLoop (c.lucky.lock rng) c.positions 0 with
    | none => rw [hrel] at h; exact absurd h (by simp)
    | some out' =>
      rw [hrel] at h
      simp only [Option.map] at h
      simp at h
      rw [h]

theorem any_isSome_iff_countSome_pos (l : List (Option P)) :
    (l.any (fun o => o.isSome) = true) ↔ 0 < Reservoir.countSome l := by
  rw [List.any_eq_true, Reservoir.countSome, List.countP_pos_iff]

end Choosen

theorem build_ok_elim {P : Type u} (b : ChoosenBuilder) (ch : Choosen P)
    (h : b.build P = .ok ch) :
    b.positions ≠ [] ∧
    ch = Choosen.mk b.positions
      (Reservoir.with_capacity P ((b.positions.map Position.cap).sum)) := by
  rw [ChoosenBuilder.build] at h
  by_cases hemp : b.positions.isEmpty
  · rw [if_pos hemp] at h
    exact absurd h (by simp)
  · rw [if_neg hemp] at h
    simp only [Except.ok.injEq] at h
    constructor
    · intro h0
      apply hemp
      rw [h0]
      rfl
    · exact h.symm

theorem sum_caps_pos (posList : List Position) (hne : posList ≠ [])
    (hcap : ∀ p ∈ posList, 1 ≤ p.cap) :
    1 ≤ (posList.map Position.cap).sum := by
  cases posList with
  | nil => exact absurd rfl hne
  | cons p rest =>
    simp only [List.map_cons, List.sum_cons]
    have := hcap p (List.mem_cons_self p rest)
    omega

/-! Section: Claim C5 -/

/-- C5: a successful `release` returns exactly one entry per position, in
declared order; the entry for position `j` carries that position's name and
precisely the occupied slots of the contiguous finalized-slot subrange
starting at the sum of the previous capacities, in slot order; consecutive
subranges abut (offset of position `j+1` = offset of `j` plus its
capacity), so they do not overlap. -/
theorem release_partition {P : Type u} (c : Choosen P) (rng : Nat → Nat)
    (out : List (String × List P)) (hout : c.release rng = some (.ok out)) :
    out.length = c.positions.length ∧
    (∀ j, j < c.positions.length →
      out.getD j ("", []) =
        ((c.positions.getD j Position.default).name,
         (List.range (c.positions.getD j Position.default).cap).filterMap
           (fun i => (c.lucky.lock rng).getD
             (((c.positions.take j).map Position.cap).sum + i) none))) ∧
    (∀ j, j < c.positions.length →
      ((c.positions.take (j + 1)).map Position.cap).sum
        = ((c.positions.take j).map Position.cap).sum
          + (c.positions.getD j Position.default).cap) := by
  obtain ⟨hlen, hspec⟩ := Choosen.releaseLoop_sound (c.lucky.lock rng) c.positions 0 out
    (Choosen.release_ok_elim c rng out hout)
  refine ⟨hlen, ?_, ?_⟩
  · intro j hj
    have := hspec j hj
    simp only [Nat.zero_add] at this
    exact this
  · intro j hj
    rw [List.map_take, List.map_take, list_getD_eq_getElem _ hj, List.take_succ]
    rw [List.getElem?_map, List.getElem?_eq_getElem hj]
    simp

/-- C5 witness: two capacity-1 positions, one drawn item; the finalisation
shuffle moves it from slot 0 to slot 1, so position "a" wins nothing and
position "b" wins the item. -/
theorem release_partition_witness :
    ([("a", ([] : List Nat)), ("b", [5])].length
      = (Choosen.foldPoll
          (Choosen.mk [⟨"a", 1⟩, ⟨"b", 1⟩] (Reservoir.with_capacity Nat 2))
          [(0, 5)]).positions.length) :=
  (release_partition
    (Choosen.foldPoll
      (Choosen.mk [⟨"a", 1⟩, ⟨"b", 1⟩] (Reservoir.with_capacity Nat 2)) [(0, 5)])
    (fun _ => 0) [("a", []), ("b", [5])] (by rfl)).1

/-! Section: Claim C4 -/

/-- C4: for a Lottery built from a nonempty position list with positive
capacities, `release` fails with the `NoOneChosen` error exactly when zero
items were drawn; when at least one item was drawn it succeeds. -/
theorem empty_stream_rejection {P : Type u} (posList : List Position) (ch : Choosen P)
    (hbuild : (ChoosenBuilder.mk posList).build P = .ok ch)
    (hcap : ∀ p ∈ posList, 1 ≤ p.cap)
    (ps : List (Nat × P)) (rng : Nat → Nat) :
    ((Choosen.foldPoll ch ps).release rng
        = some (.error "No one is choosen!") ↔ ps = []) ∧
    (ps ≠ [] → ∃ out, (Choosen.foldPoll ch ps).release rng = some (.ok out)) := by
  obtain ⟨hne, hch⟩ := build_ok_elim (ChoosenBuilder.mk posList) ch hbuild
  have hC := sum_caps_pos posList hne hcap
  subst hch
  obtain ⟨hlucky, hpos⟩ := Choosen.foldPoll_parts ps
    (Choosen.mk posList
      (Reservoir.with_capacity P ((posList.map Position.cap).sum)))
  set st := Choosen.foldPoll
    (Choosen.mk posList
      (Reservoir.with_capacity P ((posList.map Position.cap).sum))) ps with hst
  obtain ⟨hInv, hTot, hLen⟩ := Reservoir.foldSample_props ps
    (Reservoir.with_capacity P ((posList.map Position.cap).sum))
    (Reservoir.with_capacity_inv _)
  have hLen' : (Reservoir.foldSample
      (Reservoir.with_capacity P ((posList.map Position.cap).sum)) ps).pool.length
      = (posList.map Position.cap).sum := by
    rw [hLen]; simp [Reservoir.with_capacity]
  have hTot' : (Reservoir.foldSample
      (Reservoir.with_capacity P ((posList.map Position.cap).sum)) ps).total
      = ps.length := by
    rw [hTot]; simp [Reservoir.with_capacity]
  have hcount : Reservoir.countSome (st.lucky.lock rng)
      = min ps.length ((posList.map Position.cap).sum) := by
    rw [hlucky, Reservoir.lock_countSome _ rng hInv]
    have := Reservoir.countSome_eq_min _ _ (fun i hi => hInv i hi)
    rw [hTot', hLen'] at this
    exact this
  have hfinallen : (st.lucky.lock rng).length = (posList.map Position.cap).sum := by
    rw [hlucky, Reservoir.lock_length, hLen']
  have hany : ((st.lucky.lock rng).any (fun o => o.isSome) = true) ↔ ps ≠ [] := by
    rw [Choosen.any_isSome_iff_countSome_pos, hcount]
    constructor
    · intro h0 h1
      subst h1
      simp at h0
    · intro h0
      have : 0 < ps.length := List.length_pos.2 h0
      omega
  constructor
  · constructor
    · intro herr
      by_contra hne2
      have hT := hany.2 hne2
      rw [Choosen.release_eq, if_neg (by simp [hT])] at herr
      cases hrel : Choosen.releaseLoop (st.lucky.lock rng) st.positions 0 with
      | none => rw [hrel] at herr; exact absurd herr (by simp)
      | some o => rw [hrel] at herr; simp at herr
    · intro hnil
      have hF : (st.lucky.lock rng).any (fun o => o.isSome) = false := by
        rw [← Bool.not_eq_true]
        rw [hany]
        simp [hnil]
      rw [Choosen.release_eq, if_pos hF]
  · intro hne2
    have hT := hany.2 hne2
    rw [Choosen.release_eq, if_neg (by simp [hT])]
    have hsome := Choosen.releaseLoop_isSome (st.lucky.lock rng) st.positions 0
      (by rw [hpos, hfinallen]; simp)
    obtain ⟨out, hout⟩ := Option.isSome_iff_exists.1 hsome
    exact ⟨out, by rw [hout]; rfl⟩

/-- C4 witness: one position of capacity 1; with one drawn item `release`
does not report the empty-lottery error and succeeds. -/
theorem empty_stream_rejection_witness :
    ((Choosen.foldPoll (Choosen.mk [⟨"a", 1⟩] (Reservoir.with_capacity Nat 1))
        [(0, 3)]).release (fun _ => 0)
      = some (.error "No one is choosen!") ↔ [(0, (3:Nat))] = []) ∧
    ([(0, (3:Nat))] ≠ [] → ∃ out,
      (Choosen.foldPoll (Choosen.mk [⟨"a", 1⟩] (Reservoir.with_capacity Nat 1))
        [(0, 3)]).release (fun _ => 0) = some (.ok out)) :=
  empty_stream_rejection [⟨"a", 1⟩]
    (Choosen.mk [⟨"a", 1⟩] (Reservoir.with_capacity Nat 1)) rfl
    (by decide) [(0, 3)] (fun _ => 0)

/-! Section: Claim C10 -/

/-- C10: for every `Choosen` produced by `build` and any sequence of
`poll_one` calls, the reservoir's slot sequence keeps length equal to the
sum of the position capacities, and `release` never hits an out-of-range
slot access (the panic-modelling `Option` is always `some`). -/
theorem slot_count_safety {P : Type u} (b : ChoosenBuilder) (ch : Choosen P)
    (hbuild : b.build P = .ok ch) (ps : List (Nat × P)) (rng : Nat → Nat) :
    (Choosen.foldPoll ch ps).lucky.pool.length
        = (ch.positions.map Position.cap).sum ∧
    ((Choosen.foldPoll ch ps).release rng).isSome := by
  obtain ⟨hne, hch⟩ := build_ok_elim b ch hbuild
  subst hch
  obtain ⟨hlucky, hpos⟩ := Choosen.foldPoll_parts ps
    (Choosen.mk b.positions
      (Reservoir.with_capacity P ((b.positions.map Position.cap).sum)))
  obtain ⟨hInv, hTot, hLen⟩ := Reservoir.foldSample_props ps
    (Reservoir.with_capacity P ((b.positions.map Position.cap).sum))
    (Reservoir.with_capacity_inv _)
  have hLen' : (Reservoir.foldSample
      (Reservoir.with_capacity P ((b.positions.map Position.cap).sum)) ps).pool.length
      = (b.positions.map Position.cap).sum := by
    rw [hLen]; simp [Reservoir.with_capacity]
  refine ⟨by rw [hlucky, hLen'], ?_⟩
  rw [Choosen.release_eq]
  by_cases hany : ((Choosen.foldPoll
      (Choosen.mk b.positions
        (Reservoir.with_capacity P ((b.positions.map Position.cap).sum)))
      ps).lucky.lock rng).any (fun o => o.isSome) = false
  · rw [if_pos hany]
    rfl
  · rw [if_neg hany]
    have hsome := Choosen.releaseLoop_isSome
      ((Choosen.foldPoll (Choosen.mk b.positions
        (Reservoir.with_capacity P ((b.positions.map Position.cap).sum))) ps).lucky.lock rng)
      ((Choosen.foldPoll (Choosen.mk b.positions
        (Reservoir.with_capacity P ((b.positions.map Position.cap).sum))) ps).positions)
      0 (by rw [hpos, hlucky, Reservoir.lock_length, hLen']; simp)
    obtain ⟨out, hout⟩ := Option.isSome_iff_exists.1 hsome
    rw [hout]
    rfl

/-- C10 witness: a single capacity-1 position, empty stream. -/
theorem slot_count_safety_witness :
    (Choosen.foldPoll (Choosen.mk [⟨"a", 1⟩] (Reservoir.with_capacity Nat 1))
        []).lucky.pool.length
      = ((Choosen.mk [⟨"a", 1⟩]
          (Reservoir.with_capacity Nat 1)).positions.map Position.cap).sum ∧
    ((Choosen.foldPoll (Choosen.mk [⟨"a", 1⟩] (Reservoir.with_capacity Nat 1))
        []).release (fun _ => 0)).isSome :=
  slot_count_safety (ChoosenBuilder.mk [⟨"a", 1⟩])
    (Choosen.mk [⟨"a", 1⟩] (Reservoir.with_capacity Nat 1)) rfl [] (fun _ => 0)
